import Mathlib

/-!
Verification of the PoWERC20 miner core (Go, `main.go`) against its
natural-language specification.

The embedding translates the miner's pure logic into Lean:

* byte-level helpers (`LeftPadBytes`, `big.Int.Bytes`) become functions on
  `List Nat` (each element one byte value);
* the 256-bit Keccak hash is kept abstract as a parameter
  `keccak : List Nat → Nat` (its output read as an unsigned integer, as the
  Go code does with `hash.Big()`);
* the worker loop `mineWorker` becomes a function over an explicit list of
  per-iteration environment inputs (the state of the cancellation signal at
  the loop top, and the outcome of the randomness draw), producing the list
  of messages the worker sends, its exit status, and whether the deferred
  wait-group completion ran;
* the telemetry goroutine becomes an explicit state machine over tick and
  hash-count events, with the printed value modelled as an exact rational;
* the coordinator's terminal `select` becomes a function of the merged
  arrival order of result/error messages.
-/

namespace Miner

/-- go-ethereum `common.LeftPadBytes slice l`: if `l ≤ len slice` the slice is
returned unchanged, otherwise it is left-padded with zero bytes to length `l`. -/
def leftPadBytes (slice : List Nat) (l : Nat) : List Nat :=
  if l ≤ slice.length then slice
  else List.replicate (l - slice.length) 0 ++ slice

/-- `big.Int.Bytes()`: the minimal big-endian byte representation of a
nonnegative integer; the empty list for zero. -/
def bigIntBytes : Nat → List Nat
  | 0 => []
  | n + 1 => bigIntBytes ((n + 1) / 256) ++ [(n + 1) % 256]
decreasing_by exact Nat.div_lt_self (Nat.succ_pos n) (by norm_num)

/-- Reading a big-endian byte list back as an unsigned integer. -/
def bytesToNat (bs : List Nat) : Nat :=
  bs.foldl (fun acc b => acc * 256 + b) 0

/-- Embeds main's target computation (part_000 lines 136-137):
`difficultyUint := uint(difficulty.Uint64())` truncates the difficulty to its
low 64 bits, and the Go `uint` subtraction `256 - difficultyUint` wraps
modulo `2^64`; the target is `1 << (256 - difficultyUint)`. -/
def computeTarget (difficulty : Nat) : Nat :=
  2 ^ ((256 + 2 ^ 64 - difficulty % 2 ^ 64) % 2 ^ 64)

/-- Embeds the upper bound of the worker's randomness draw (part_000 line 53):
`rand.Int(rand.Reader, new(big.Int).Lsh(big.NewInt(1), 256))` draws a nonce
uniformly in `[0, 2^256)`. -/
def nonceBound : Nat := 2 ^ 256

/-- Embeds the candidate evaluation inside the worker loop (part_000 lines
59-64): pad the nonce and the challenge to 32 bytes, concatenate
`challengePadded ++ (addressBytes ++ noncePadded)` (the source's nested
`append`), hash, and accept iff `hash.Big().Cmp(target) == -1`,
i.e. iff the digest read as an unsigned integer is strictly below the target. -/
def evaluateCandidate (keccak : List Nat → Nat) (challenge : Nat)
    (fromAddress : List Nat) (nonce : Nat) (target : Nat) : Nat × Bool :=
  let noncePadded := leftPadBytes (bigIntBytes nonce) 32
  let challengePadded := leftPadBytes (bigIntBytes challenge) 32
  let addressBytes := fromAddress
  let data := challengePadded ++ (addressBytes ++ noncePadded)
  let hash := keccak data
  (hash, decide (hash < target))

/-- The byte layout as the specification words it (§4.2): the challenge
left-padded to 32 bytes big-endian, then the raw claimant identity bytes, then
the nonce left-padded to 32 bytes big-endian, in that order. -/
def specLayout (challenge : Nat) (identity : List Nat) (nonce : Nat) : List Nat :=
  leftPadBytes (bigIntBytes challenge) 32 ++ identity ++ leftPadBytes (bigIntBytes nonce) 32

/-- **C1.** For every difficulty `d ≤ 256` the target computed before the
search starts equals `2^(256 - d)`, and the target is monotonically
non-increasing on `[0, 256]`. -/
theorem computeTarget_spec (d d' : Nat) (hd : d ≤ 256) (hdd : d ≤ d')
    (hd' : d' ≤ 256) :
    computeTarget d = 2 ^ (256 - d) ∧ computeTarget d' ≤ computeTarget d := by
  have key : ∀ e : Nat, e ≤ 256 → computeTarget e = 2 ^ (256 - e) := by
    intro e he
    have h64 : e < 2 ^ 64 := lt_of_le_of_lt he (by norm_num)
    have hmod : e % 2 ^ 64 = e := Nat.mod_eq_of_lt h64
    have hsplit : 256 + 2 ^ 64 - e = (256 - e) + 2 ^ 64 := by omega
    have hlt : 256 - e < 2 ^ 64 := by omega
    unfold computeTarget
    rw [hmod, hsplit, Nat.add_mod_right, Nat.mod_eq_of_lt hlt]
  refine ⟨key d hd, ?_⟩
  rw [key d hd, key d' hd']
  exact Nat.pow_le_pow_right (by norm_num) (by omega)

/-- Witness for `computeTarget_spec` at `d = 3`, `d' = 5`. -/
theorem computeTarget_spec_witness :
    computeTarget 3 = 2 ^ (256 - 3) ∧ computeTarget 5 ≤ computeTarget 3 :=
  computeTarget_spec 3 5 (by norm_num) (by norm_num) (by norm_num)

/-- **C2.** For every candidate evaluation, the digest is the (abstract
256-bit Keccak) hash of the concatenation, in order, of the challenge
left-padded to 32 bytes big-endian, the raw claimant identity bytes, and the
nonce left-padded to 32 bytes big-endian; and the candidate is accepted if
and only if the digest, read as an unsigned integer, is strictly less than
the target. -/
theorem evaluate_layout_accept (keccak : List Nat → Nat) (challenge : Nat)
    (identity : List Nat) (nonce target : Nat) :
    (evaluateCandidate keccak challenge identity nonce target).1 =
      keccak (specLayout challenge identity nonce) ∧
    ((evaluateCandidate keccak challenge identity nonce target).2 = true ↔
      keccak (specLayout challenge identity nonce) < target) := by
  have hdata : leftPadBytes (bigIntBytes challenge) 32 ++
      (identity ++ leftPadBytes (bigIntBytes nonce) 32) =
      specLayout challenge identity nonce := by
    simp [specLayout]
  constructor
  · simp [evaluateCandidate, hdata]
  · simp [evaluateCandidate, hdata]

/-- Outcome of one call to `rand.Int(rand.Reader, 1 << 256)` in the worker
loop: either a nonce or a randomness failure with an error message. -/
inductive RandOutcome where
  | ok (nonce : Nat)
  | fail (msg : String)
deriving DecidableEq, Repr

/-- Per-iteration environment input for a worker: the state of the
cancellation signal observed by the loop-top `select` on `ctx.Done()`, and
the outcome of the iteration's randomness draw. -/
structure WorkerStep where
  cancelled : Bool
  rand : RandOutcome
deriving DecidableEq, Repr

/-- A message a worker sends on one of its three outgoing channels. -/
inductive Msg where
  | result (nonce : Nat)
  | error (msg : String)
  | hashCount (n : Nat)
deriving DecidableEq, Repr

/-- How a worker run ended. `running` means the supplied list of environment
inputs was exhausted with the loop still going (the Go loop is unbounded). -/
inductive Exit where
  | cancelled
  | erred
  | found
  | running
deriving DecidableEq, Repr

/-- Observable outcome of a worker run: the messages sent in order, the exit
status, and whether the deferred `wg.Done()` (registered at part_000 line 43,
before the loop) has executed. -/
structure WorkerRun where
  msgs : List Msg
  exit : Exit
  wgDone : Bool
deriving DecidableEq, Repr

/-- Embeds `mineWorker` (part_000 lines 42-72). Each iteration: the `select`
takes the `ctx.Done()` case when the cancellation signal is set (returning at
once with no message), otherwise the `default` case draws a nonce; a
randomness failure is sent on the error channel followed by `return`; an
accepted candidate's nonce is sent on the result channel followed by
`return`; a rejected candidate sends `1` on the hash-count channel and the
loop repeats. The deferred `wg.Done()` runs on every `return` path. -/
def mineWorker (keccak : List Nat → Nat) (challenge : Nat)
    (fromAddress : List Nat) (target : Nat) : List WorkerStep → WorkerRun
  | [] => ⟨[], Exit.running, false⟩
  | s :: rest =>
    if s.cancelled then ⟨[], Exit.cancelled, true⟩
    else
      match s.rand with
      | RandOutcome.fail e => ⟨[Msg.error e], Exit.erred, true⟩
      | RandOutcome.ok nonce =>
        if (evaluateCandidate keccak challenge fromAddress nonce target).2 then
          ⟨[Msg.result nonce], Exit.found, true⟩
        else
          let r := mineWorker keccak challenge fromAddress target rest
          ⟨Msg.hashCount 1 :: r.msgs, r.exit, r.wgDone⟩

/-- **C4.** In every worker loop iteration (cancellation not set, randomness
draw successful): if the candidate is accepted the worker reports the nonce
on the result channel and stops immediately, sending nothing else and in
particular no hash-count for the accepting attempt; if the candidate is
rejected the worker reports exactly one unit of hash-count progress and then
repeats from the cancellation check on the remaining iterations. -/
theorem worker_accept_reject_step (keccak : List Nat → Nat)
    (challenge : Nat) (fromAddress : List Nat) (target : Nat)
    (s : WorkerStep) (rest : List WorkerStep) (n : Nat)
    (hc : s.cancelled = false) (hr : s.rand = RandOutcome.ok n) :
    ((evaluateCandidate keccak challenge fromAddress n target).2 = true →
      mineWorker keccak challenge fromAddress target (s :: rest) =
        ⟨[Msg.result n], Exit.found, true⟩) ∧
    ((evaluateCandidate keccak challenge fromAddress n target).2 = false →
      mineWorker keccak challenge fromAddress target (s :: rest) =
        ⟨Msg.hashCount 1 ::
            (mineWorker keccak challenge fromAddress target rest).msgs,
          (mineWorker keccak challenge fromAddress target rest).exit,
          (mineWorker keccak challenge fromAddress target rest).wgDone⟩) := by
  constructor
  · intro hacc
    simp [mineWorker, hc, hr, hacc]
  · intro hrej
    simp [mineWorker, hc, hr, hrej]

/-- Witness for `worker_accept_reject_step`: a constant-zero hash with target
1 accepts, target 0 rejects; environment input not cancelled, draw ok. -/
theorem worker_accept_reject_step_witness :
    (((evaluateCandidate (fun _ => 0) 0 [] 7 1).2 = true →
      mineWorker (fun _ => 0) 0 [] 1 [⟨false, RandOutcome.ok 7⟩] =
        ⟨[Msg.result 7], Exit.found, true⟩) ∧
    ((evaluateCandidate (fun _ => 0) 0 [] 7 1).2 = false →
      mineWorker (fun _ => 0) 0 [] 1 [⟨false, RandOutcome.ok 7⟩] =
        ⟨Msg.hashCount 1 :: (mineWorker (fun _ => 0) 0 [] 1 []).msgs,
          (mineWorker (fun _ => 0) 0 [] 1 []).exit,
          (mineWorker (fun _ => 0) 0 [] 1 []).wgDone⟩)) :=
  worker_accept_reject_step (fun _ => 0) 0 [] 1 ⟨false, RandOutcome.ok 7⟩ [] 7
    rfl rfl

/-- **C5.** Failure to obtain randomness is the only error condition a worker
can raise: when the draw fails the worker sends exactly the error on the
error channel and stops (first conjunct), and a run whose draws all succeed
never sends any message on the error channel (second conjunct). -/
theorem worker_error_iff_rand_failure (keccak : List Nat → Nat)
    (challenge : Nat) (fromAddress : List Nat) (target : Nat)
    (s : WorkerStep) (rest steps : List WorkerStep) (e m : String)
    (hc : s.cancelled = false) (hf : s.rand = RandOutcome.fail e)
    (hok : ∀ u ∈ steps, ∀ m', u.rand ≠ RandOutcome.fail m') :
    mineWorker keccak challenge fromAddress target (s :: rest) =
      ⟨[Msg.error e], Exit.erred, true⟩ ∧
    Msg.error m ∉
      (mineWorker keccak challenge fromAddress target steps).msgs := by
  constructor
  · simp [mineWorker, hc, hf]
  · induction steps with
    | nil => simp [mineWorker]
    | cons u us ih =>
      by_cases hu : u.cancelled
      · simp [mineWorker, hu]
      · match hr : u.rand with
        | RandOutcome.fail e' =>
          exact absurd hr (hok u (List.mem_cons_self u us) e')
        | RandOutcome.ok nonce =>
          by_cases hacc :
              (evaluateCandidate keccak challenge fromAddress nonce target).2
          · simp [mineWorker, hu, hr, hacc]
          · have ih' := ih (fun v hv => hok v (List.mem_cons_of_mem u hv))
            simp only [mineWorker, hu, Bool.false_eq_true, if_false, hr,
              hacc, List.mem_cons] at *
            intro hmem
            rcases hmem with h1 | h2
            · exact Msg.noConfusion h1
            · exact ih' h2

/-- Witness for `worker_error_iff_rand_failure`: a failing draw in the first
scenario, and a single successful-draw iteration in the second. -/
theorem worker_error_iff_rand_failure_witness :
    mineWorker (fun _ => 0) 0 [] 0 [⟨false, RandOutcome.fail "boom"⟩] =
      ⟨[Msg.error "boom"], Exit.erred, true⟩ ∧
    Msg.error "boom" ∉
      (mineWorker (fun _ => 0) 0 [] 0 [⟨false, RandOutcome.ok 7⟩]).msgs :=
  worker_error_iff_rand_failure (fun _ => 0) 0 [] 0
    ⟨false, RandOutcome.fail "boom"⟩ [] [⟨false, RandOutcome.ok 7⟩] "boom"
    "boom" rfl rfl (by intro u hu m; simp at hu; subst hu; simp)

/-- **C9.** Every worker run that exits — cancellation observed, randomness
failure reported, or winning nonce reported — has executed the deferred
wait-group completion `wg.Done()` registered before the loop started, so the
coordinator's `wg.Wait()` accounts for every spawned worker. -/
theorem worker_wgDone_on_exit (keccak : List Nat → Nat) (challenge : Nat)
    (fromAddress : List Nat) (target : Nat) (steps : List WorkerStep)
    (h : (mineWorker keccak challenge fromAddress target steps).exit ≠
      Exit.running) :
    (mineWorker keccak challenge fromAddress target steps).wgDone = true := by
  induction steps with
  | nil => simp [mineWorker] at h
  | cons s rest ih =>
    by_cases hc : s.cancelled
    · simp [mineWorker, hc]
    · match hr : s.rand with
      | RandOutcome.fail e => simp [mineWorker, hc, hr]
      | RandOutcome.ok nonce =>
        by_cases hacc :
            (evaluateCandidate keccak challenge fromAddress nonce target).2
        · simp [mineWorker, hc, hr, hacc]
        · simp only [mineWorker, hc, Bool.false_eq_true, if_false, hr,
            hacc] at h ⊢
          exact ih h

/-- Witness for `worker_wgDone_on_exit`: a run that observes cancellation in
its first iteration exits, and its wait-group completion has run. -/
theorem worker_wgDone_on_exit_witness :
    (mineWorker (fun _ => 0) 0 [] 0
      [⟨true, RandOutcome.ok 0⟩]).wgDone = true :=
  worker_wgDone_on_exit (fun _ => 0) 0 [] 0 [⟨true, RandOutcome.ok 0⟩]
    (by simp [mineWorker])

/-- **C6.** Once the cancellation signal is raised and stays raised (every
environment input from some point on shows `cancelled`), a worker emits no
further message of any kind: its whole output comes from the iterations
before that point, and it stops — at the loop-top check of its very next
iteration, before the next randomness draw — rather than running on. Hence
after the coordinator cancels and `wg.Wait()` returns, no worker emits any
further hash-count message. -/
theorem worker_stops_after_cancel (keccak : List Nat → Nat) (challenge : Nat)
    (fromAddress : List Nat) (target : Nat) (pre post : List WorkerStep)
    (hpost : ∀ s ∈ post, s.cancelled = true) (hne : post ≠ []) :
    (mineWorker keccak challenge fromAddress target (pre ++ post)).msgs =
      (mineWorker keccak challenge fromAddress target pre).msgs ∧
    (mineWorker keccak challenge fromAddress target (pre ++ post)).exit ≠
      Exit.running := by
  induction pre with
  | nil =>
    match post, hne with
    | s :: rest, _ =>
      have hs : s.cancelled = true := hpost s (List.mem_cons_self s rest)
      simp [mineWorker, hs]
  | cons s pre' ih =>
    by_cases hc : s.cancelled
    · simp [mineWorker, hc]
    · match hr : s.rand with
      | RandOutcome.fail e => simp [mineWorker, hc, hr]
      | RandOutcome.ok nonce =>
        by_cases hacc :
            (evaluateCandidate keccak challenge fromAddress nonce target).2
        · simp [mineWorker, hc, hr, hacc]
        · simp only [List.cons_append, mineWorker, hc, Bool.false_eq_true,
            if_false, hr, hacc, List.append_eq]
          exact ⟨by rw [ih.1], ih.2⟩

/-- Witness for `worker_stops_after_cancel`: one rejected attempt before a
raised-and-held cancellation signal. -/
theorem worker_stops_after_cancel_witness :
    (mineWorker (fun _ => 0) 0 [] 0
      ([⟨false, RandOutcome.ok 5⟩] ++ [⟨true, RandOutcome.ok 6⟩])).msgs =
      (mineWorker (fun _ => 0) 0 [] 0 [⟨false, RandOutcome.ok 5⟩]).msgs ∧
    (mineWorker (fun _ => 0) 0 [] 0
      ([⟨false, RandOutcome.ok 5⟩] ++ [⟨true, RandOutcome.ok 6⟩])).exit ≠
      Exit.running :=
  worker_stops_after_cancel (fun _ => 0) 0 [] 0 [⟨false, RandOutcome.ok 5⟩]
    [⟨true, RandOutcome.ok 6⟩]
    (by intro s hs; simp at hs; subst hs; rfl) (by simp)

/-- A message arriving on one of the two channels the coordinator's terminal
`select` watches: the result channel or the error channel. -/
inductive TerminalMsg where
  | result (nonce : Nat)
  | error (msg : String)
deriving DecidableEq, Repr

/-- The round outcome a caller observes: a found nonce or a failure. -/
inductive SearchResult where
  | found (nonce : Nat)
  | failed (msg : String)
deriving DecidableEq, Repr

/-- The outcome the coordinator's `select` produces from the terminal message
it consumed: the result-channel case yields a found nonce, the error-channel
case a failed round. -/
def outcomeOf : TerminalMsg → SearchResult
  | TerminalMsg.result n => SearchResult.found n
  | TerminalMsg.error e => SearchResult.failed e

/-- Embeds the coordinator's terminal `select` (part_000 lines 171-192) over
the merged arrival order of the result and error channels: it consumes only
the first message to arrive and turns it into the round's single outcome;
with no arrival it stays blocked (`none`). -/
def runSearchOutcome : List TerminalMsg → Option SearchResult
  | [] => none
  | m :: _ => some (outcomeOf m)

/-- The terminal messages (result- and error-channel sends) within a worker's
message list. -/
def terminals : List Msg → List TerminalMsg
  | [] => []
  | Msg.result n :: rest => TerminalMsg.result n :: terminals rest
  | Msg.error e :: rest => TerminalMsg.error e :: terminals rest
  | Msg.hashCount _ :: rest => terminals rest

/-- Each worker run sends at most one terminal message, and when it sends one
it is the last message of the run. -/
theorem worker_terminals_le_one (keccak : List Nat → Nat) (challenge : Nat)
    (fromAddress : List Nat) (target : Nat) (steps : List WorkerStep) :
    (terminals
      (mineWorker keccak challenge fromAddress target steps).msgs).length ≤
      1 := by
  induction steps with
  | nil => simp [mineWorker, terminals]
  | cons s rest ih =>
    by_cases hc : s.cancelled
    · simp [mineWorker, hc, terminals]
    · match hr : s.rand with
      | RandOutcome.fail e => simp [mineWorker, hc, hr, terminals]
      | RandOutcome.ok nonce =>
        by_cases hacc :
            (evaluateCandidate keccak challenge fromAddress nonce target).2
        · simp [mineWorker, hc, hr, hacc, terminals]
        · simpa [mineWorker, hc, hr, hacc, terminals] using ih

/-- **C8.** For any interleaved arrival order of the workers' terminal
messages (each of the N ≥ 1 workers contributes at most one, by
`worker_terminals_le_one`), the coordinator delivers exactly one terminal
`SearchResult` per round: the outcome of the first message to arrive, a
found nonce from the result channel or a failure from the error channel,
and never both. -/
theorem coordinator_first_message (arrivals rest : List TerminalMsg)
    (m : TerminalMsg) (n : Nat) (e : String) (ha : arrivals = m :: rest) :
    runSearchOutcome arrivals = some (outcomeOf m) ∧
    ¬(runSearchOutcome arrivals = some (SearchResult.found n) ∧
      runSearchOutcome arrivals = some (SearchResult.failed e)) := by
  subst ha
  refine ⟨rfl, ?_⟩
  intro ⟨h1, h2⟩
  rw [h1] at h2
  exact SearchResult.noConfusion (Option.some.inj h2)

/-- Witness for `coordinator_first_message`: a result-channel message wins a
race in which an error-channel message arrives second. -/
theorem coordinator_first_message_witness :
    runSearchOutcome [TerminalMsg.result 9, TerminalMsg.error "late"] =
      some (outcomeOf (TerminalMsg.result 9)) ∧
    ¬(runSearchOutcome
        [TerminalMsg.result 9, TerminalMsg.error "late"] =
        some (SearchResult.found 4) ∧
      runSearchOutcome [TerminalMsg.result 9, TerminalMsg.error "late"] =
        some (SearchResult.failed "x")) :=
  coordinator_first_message [TerminalMsg.result 9, TerminalMsg.error "late"]
    [TerminalMsg.error "late"] (TerminalMsg.result 9) 4 "x" rfl

/-- What main does between fetching the round parameters and blocking on the
terminal `select`: either abort fatally (a `logger.Fatalf` path) or proceed
into the search with a target and a number of spawned workers. -/
inductive SetupOutcome where
  | fatal (msg : String)
  | proceed (target : Nat) (spawned : Nat)
deriving DecidableEq, Repr

/-- Whether a setup outcome is a fatal abort. -/
def isFatal : SetupOutcome → Bool
  | SetupOutcome.fatal _ => true
  | SetupOutcome.proceed _ _ => false

/-- Embeds main's round setup after the difficulty fetch (part_000 lines
130-169): the difficulty is fed straight into the target computation with no
range check, and the `for i := 0; i < workerCount; i++` loop spawns exactly
`workerCount` workers with no positivity check; no `logger.Fatalf` in this
stretch depends on the difficulty value or on the worker count. -/
def setupRound (difficulty workerCount : Nat) : SetupOutcome :=
  SetupOutcome.proceed (computeTarget difficulty) workerCount

/-- **C3, counterexample.** At difficulty 257 (outside `[0, 256]`) and a
requested worker count of zero, the setup does not abort: it proceeds, with
the target computed through the wrapped shift `2^(2^64 - 1)` and zero workers
spawned. The claimed fail-fast configuration check does not exist in the
code. -/
theorem config_error_not_detected_cex :
    256 < 257 ∧ isFatal (setupRound 257 0) = false ∧
    setupRound 257 0 = SetupOutcome.proceed (computeTarget 257) 0 :=
  ⟨by norm_num, rfl, rfl⟩

/-- **C3, amended.** Main performs no configuration validation at all: for
every difficulty (in range or not) and every requested worker count (zero
included), the setup proceeds without a fatal abort, computing the target
with 64-bit wrap-around subtraction in the shift amount and spawning exactly
`workerCount` workers — zero workers when zero are requested, leaving the
coordinator blocked forever rather than aborting. -/
theorem setup_never_aborts (difficulty workerCount : Nat) :
    setupRound difficulty workerCount =
      SetupOutcome.proceed (computeTarget difficulty) workerCount ∧
    isFatal (setupRound difficulty workerCount) = false :=
  ⟨rfl, rfl⟩

/-- An event processed by the telemetry goroutine's `select`: a ticker tick
or an increment received on the hash-count channel. -/
inductive AggEvent where
  | tick
  | count (n : Nat)
deriving DecidableEq, Repr

/-- Embeds one iteration of the telemetry goroutine (part_000 lines 151-163):
on a tick it prints `hashesPerSecond := float64(totalHashCount) / 1000.0`
(the displayed value, in K/s; modelled as an exact rational) and resets the
counter to zero; on a hash-count message it adds the increment to the
counter. Returns the new counter and the emitted value, if any. -/
def aggStep (totalHashCount : Nat) : AggEvent → Nat × Option ℚ
  | AggEvent.tick => (0, some ((totalHashCount : ℚ) / 1000))
  | AggEvent.count n => (totalHashCount + n, none)

/-- Runs the telemetry goroutine over a list of events, collecting the
emitted values in order. -/
def aggRun (totalHashCount : Nat) : List AggEvent → Nat × List ℚ
  | [] => (totalHashCount, [])
  | e :: es =>
    let p := aggStep totalHashCount e
    let q := aggRun p.1 es
    (q.1, p.2.toList ++ q.2)

/-- Embeds the aggregation interval, `time.NewTicker(1 * time.Second)`
(part_000 line 149), in seconds. -/
def intervalSeconds : ℚ := 1

/-- Processing increments and then a tick from counter `c` emits exactly
`(c + sum) / 1000` and leaves the counter at zero. -/
theorem aggRun_counts_then_tick (incs : List Nat) (c : Nat) :
    aggRun c (incs.map AggEvent.count ++ [AggEvent.tick]) =
      (0, [(((c + incs.sum : Nat) : ℚ)) / 1000]) := by
  induction incs generalizing c with
  | nil => simp [aggRun, aggStep]
  | cons i is ih =>
    simp only [List.map_cons, List.cons_append, aggRun, aggStep,
      List.append_eq, Option.toList_none, List.nil_append, List.sum_cons,
      ih (c + i), Nat.add_assoc]

/-- **C7.** For every sequence of hash-count increments received within one
interval (counter starting at zero after the previous reset), the value
emitted at the tick ending the interval is `sum / 1000` in K/s — i.e., after
undoing that display unit, the sum of the increments divided by the
one-second interval length — and the accumulated counter is reset to zero
immediately upon emission. -/
theorem aggregator_interval_rate (incs : List Nat) :
    aggRun 0 (incs.map AggEvent.count ++ [AggEvent.tick]) =
      (0, [((incs.sum : ℚ)) / 1000]) ∧
    ((incs.sum : ℚ) / 1000) * 1000 = (incs.sum : ℚ) / intervalSeconds := by
  constructor
  · have h := aggRun_counts_then_tick incs 0
    rwa [Nat.zero_add] at h
  · rw [intervalSeconds, div_one, div_mul_cancel₀]
    norm_num

/-- `bytesToNat` on a list extended by one byte multiplies by 256 and adds
the byte. -/
theorem bytesToNat_append_byte (bs : List Nat) (d : Nat) :
    bytesToNat (bs ++ [d]) = bytesToNat bs * 256 + d := by
  simp [bytesToNat, List.foldl_append]

/-- Decoding inverts the minimal big-endian encoding. -/
theorem bytesToNat_bigIntBytes (n : Nat) :
    bytesToNat (bigIntBytes n) = n := by
  induction n using Nat.strong_induction_on with
  | _ n ih =>
    match n with
    | 0 => simp [bigIntBytes, bytesToNat]
    | m + 1 =>
      rw [bigIntBytes, bytesToNat_append_byte,
        ih ((m + 1) / 256) (Nat.div_lt_self (Nat.succ_pos m) (by norm_num))]
      omega

/-- The minimal big-endian encoding of `n < 256 ^ k` has at most `k` bytes. -/
theorem bigIntBytes_length_le (k : Nat) : ∀ n : Nat, n < 256 ^ k →
    (bigIntBytes n).length ≤ k := by
  induction k with
  | zero =>
    intro n hn
    interval_cases n
    simp [bigIntBytes]
  | succ k ih =>
    intro n hn
    match n with
    | 0 => simp [bigIntBytes]
    | m + 1 =>
      rw [bigIntBytes, List.length_append, List.length_singleton]
      have hdiv : (m + 1) / 256 < 256 ^ k := by
        rw [Nat.div_lt_iff_lt_mul (by norm_num)]
        calc m + 1 < 256 ^ (k + 1) := hn
        _ = 256 ^ k * 256 := by ring
      have := ih ((m + 1) / 256) hdiv
      omega

/-- A prefix of zero bytes does not change the decoded value. -/
theorem bytesToNat_zero_pad (m : Nat) (bs : List Nat) :
    bytesToNat (List.replicate m 0 ++ bs) = bytesToNat bs := by
  have hz : ∀ j : Nat, List.foldl (fun acc b => acc * 256 + b) 0
      (List.replicate j 0) = 0 := by
    intro j
    induction j with
    | zero => rfl
    | succ j ihj => simpa [List.replicate_succ, List.foldl_cons] using ihj
  simp [bytesToNat, List.foldl_append, hz]

/-- **C10.** Every nonce a worker draws lies below the draw bound `2^256`, so
its minimal big-endian encoding is at most 32 bytes, left-padding it to 32
bytes yields exactly 32 bytes, and the padded bytes still decode to the same
nonce — the padding never truncates. -/
theorem nonce_pad_no_truncation (n : Nat) (h : n < nonceBound) :
    (bigIntBytes n).length ≤ 32 ∧
    (leftPadBytes (bigIntBytes n) 32).length = 32 ∧
    bytesToNat (leftPadBytes (bigIntBytes n) 32) = n := by
  have hpow : (256 : Nat) ^ 32 = 2 ^ 256 := by norm_num
  have hlen : (bigIntBytes n).length ≤ 32 := by
    refine bigIntBytes_length_le 32 n ?_
    rw [hpow]
    exact h
  refine ⟨hlen, ?_, ?_⟩
  · rw [leftPadBytes]
    by_cases hc : 32 ≤ (bigIntBytes n).length
    · simp only [hc, if_true]
      omega
    · simp only [hc, if_false]
      rw [List.length_append, List.length_replicate]
      omega
  · rw [leftPadBytes]
    by_cases hc : 32 ≤ (bigIntBytes n).length
    · simp only [hc, if_true]
      exact bytesToNat_bigIntBytes n
    · simp only [hc, if_false]
      rw [bytesToNat_zero_pad]
      exact bytesToNat_bigIntBytes n

/-- Witness for `nonce_pad_no_truncation` at nonce 7. -/
theorem nonce_pad_no_truncation_witness :
    (bigIntBytes 7).length ≤ 32 ∧
    (leftPadBytes (bigIntBytes 7) 32).length = 32 ∧
    bytesToNat (leftPadBytes (bigIntBytes 7) 32) = 7 :=
  nonce_pad_no_truncation 7 (by norm_num [nonceBound])

end Miner
